import Mathlib

/-!
Verification of the YKCMP_V1 decompression engine (`switch/ykcmpdec.py`).

The decoder is embedded shallowly: bytes are `Nat`s, buffers are `List Nat`,
the Python `while` loop becomes a fuel-indexed structural recursion
(`ykcmpLoopF`) whose fuel `comp.length` is always sufficient because every
iteration of the source loop strictly advances the read cursor `cp`.
The growing output list models the Python pre-zeroed `bytearray` faithfully:
every read the source performs on `out` is at an index strictly below the
write cursor `dp` (proved below), so the unwritten zero tail is never read,
and the final `bytes(out)` is the written part padded with zeros.
-/

namespace Ykcmp

/-- The magic tag `b"YKCMP_V1"` as raw bytes. -/
def MAGIC : List Nat := [0x59, 0x4B, 0x43, 0x4D, 0x50, 0x5F, 0x56, 0x31]

/-- `int.from_bytes(bs, "little")`. -/
def leNat : List Nat → Nat
  | [] => 0
  | b :: rest => b + 256 * leNat rest

/-- Python slice `data[s:e]` for `0 ≤ s ≤ e` (clamped at the ends). -/
def pySlice (data : List Nat) (s e : Nat) : List Nat :=
  (data.drop s).take (e - s)

/-- The `zsize` header field: `int.from_bytes(data[offset+12:offset+16], "little")`. -/
def hdrZsize (data : List Nat) (offset : Nat) : Nat :=
  leNat (pySlice data (offset + 12) (offset + 16))

/-- The `dsize` header field: `int.from_bytes(data[offset+16:offset+20], "little")`. -/
def hdrDsize (data : List Nat) (offset : Nat) : Nat :=
  leNat (pySlice data (offset + 16) (offset + 20))

/-- The literal-copy inner loop (`for _ in range(num): if cp >= comp_len or
dp >= dsize: break; out[dp] = comp[cp]; dp += 1; cp += 1`).  Takes the
remaining input, the written output, the remaining count `n` and `dsize`;
returns the remaining input and the new output. -/
def literalCopy : List Nat → List Nat → Nat → Nat → List Nat × List Nat
  | comp, out, 0, _ => (comp, out)
  | [], out, _ + 1, _ => ([], out)
  | x :: rest, out, n + 1, dsize =>
    if dsize ≤ out.length then (x :: rest, out)
    else literalCopy rest (out ++ [x]) n dsize

/-- The back-reference copy loop (`for _ in range(readlen): if dp >= dsize:
break; src_pos = dp - seekback; val = 0 if src_pos < 0 else out[src_pos];
out[dp] = val; dp += 1`).  The write cursor `dp` is `out.length`; the Python
test `src_pos < 0` is `out.length < seekback`. -/
def lookbackCopy : List Nat → Nat → Nat → Nat → List Nat
  | out, _, 0, _ => out
  | out, seekback, n + 1, dsize =>
    if dsize ≤ out.length then out
    else
      lookbackCopy
        (out ++ [if out.length < seekback then 0 else out.getD (out.length - seekback) 0])
        seekback n dsize

/-- The main decode loop (`while cp < comp_len and dp < dsize`), fuel-indexed.
Each source iteration strictly advances `cp`, so fuel `comp.length` never
runs out before the loop stops by itself.  Returns the unconsumed input
(`comp[cp:]` at loop exit) and the written output (`out[:dp]`). -/
def ykcmpLoopF : Nat → List Nat → List Nat → Nat → List Nat × List Nat
  | 0, comp, out, _ => (comp, out)
  | _ + 1, [], out, _ => ([], out)
  | fuel + 1, a :: rest, out, dsize =>
    if dsize ≤ out.length then (a :: rest, out)
    else if a = 0 then
      -- 0 = nop
      ykcmpLoopF fuel rest out dsize
    else if a < 0x80 then
      -- < 0x80: literal copy of `a` raw bytes
      let r := literalCopy rest out a dsize
      ykcmpLoopF fuel r.1 r.2 dsize
    else if 0xE0 ≤ a then
      -- 3-byte sequence A B C; break if fewer than two bytes follow
      match rest with
      | b :: c :: rest2 =>
        ykcmpLoopF fuel rest2
          (lookbackCopy out (((b &&& 0x0F) <<< 8) + c + 1)
            (((a &&& 0x1F) <<< 4) + (b >>> 4) + 3) dsize) dsize
      | _ => (a :: rest, out)
    else if 0xC0 ≤ a then
      -- 2-byte sequence A B; break if no byte follows
      match rest with
      | b :: rest2 =>
        ykcmpLoopF fuel rest2
          (lookbackCopy out (b + 1) ((a &&& 0x3F) + 2) dsize) dsize
      | [] => (a :: rest, out)
    else
      -- 0x80 <= a < 0xC0, 1-byte sequence A
      ykcmpLoopF fuel rest
        (lookbackCopy out ((a &&& 0x0F) + 1) (((a >>> 4) &&& 0x03) + 1) dsize) dsize

/-- The decode loop with its canonical (always sufficient) fuel. -/
def ykcmpLoop (comp out : List Nat) (dsize : Nat) : List Nat × List Nat :=
  ykcmpLoopF comp.length comp out dsize

/-- The final `bytes(out)`: the written prefix padded with the zeros the
pre-allocated `bytearray(dsize)` keeps in its unwritten tail. -/
def ykcmpOutput (comp : List Nat) (dsize : Nat) : List Nat :=
  (ykcmpLoop comp [] dsize).2 ++ List.replicate (dsize - (ykcmpLoop comp [] dsize).2.length) 0

/-- Observable outcome of a successful `ykcmp_decompress_from` call: the
returned buffer, plus the two facts the function reports through its
`dp != dsize` warning — the count `dp` of bytes actually produced and
whether the decode came up short. -/
structure DecodeResult where
  out : List Nat
  produced : Nat
  short : Bool
deriving DecidableEq, Repr

/-- `ykcmp_decompress_from(data, offset)`: header validation followed by the
decode loop.  The `version != 4` case only prints a warning in the source and
is not an error, so it does not appear here; `zsize <= 0` is `zsize = 0`
since the field is parsed as an unsigned little-endian integer. -/
def ykcmp_decompress_from (data : List Nat) (offset : Nat) : Except String DecodeResult :=
  if data.length < offset + 20 then .error "offset outside file or header short"
  else if pySlice data offset (offset + 8) ≠ MAGIC then .error "magic YKCMP_V1 not found"
  else if hdrZsize data offset = 0 then .error "invalid zsize"
  else if data.length < offset + hdrZsize data offset then .error "zsize past end of file"
  else
    let comp := pySlice data (offset + 20) (offset + hdrZsize data offset)
    let dsize := hdrDsize data offset
    let w := (ykcmpLoop comp [] dsize).2
    .ok ⟨w ++ List.replicate (dsize - w.length) 0, w.length, w.length != dsize⟩

/-! ### Structural lemmas about the copy loops -/

theorem literalCopy_fst_sfx (comp out : List Nat) (n d : Nat) :
    (literalCopy comp out n d).1 <:+ comp := by
  induction n generalizing comp out with
  | zero => simp [literalCopy]
  | succ n ih =>
    cases comp with
    | nil => simp [literalCopy]
    | cons x rest =>
      simp only [literalCopy]
      split
      · exact List.suffix_refl _
      · exact (ih rest (out ++ [x])).trans (List.suffix_cons x rest)

theorem literalCopy_fst_length_le (comp out : List Nat) (n d : Nat) :
    (literalCopy comp out n d).1.length ≤ comp.length :=
  (literalCopy_fst_sfx comp out n d).length_le

theorem literalCopy_extends (comp out : List Nat) (n d : Nat) :
    out <+: (literalCopy comp out n d).2 := by
  induction n generalizing comp out with
  | zero => simp [literalCopy]
  | succ n ih =>
    cases comp with
    | nil => simp [literalCopy]
    | cons x rest =>
      simp only [literalCopy]
      split
      · exact List.prefix_refl _
      · exact (List.prefix_append out [x]).trans (ih rest (out ++ [x]))

theorem literalCopy_length_le (comp out : List Nat) (n d : Nat) (h : out.length ≤ d) :
    (literalCopy comp out n d).2.length ≤ d := by
  induction n generalizing comp out with
  | zero => simpa [literalCopy] using h
  | succ n ih =>
    cases comp with
    | nil => simpa [literalCopy] using h
    | cons x rest =>
      simp only [literalCopy]
      split
      · exact h
      · exact ih rest (out ++ [x]) (by simp; omega)

theorem lookbackCopy_extends (out : List Nat) (sb n d : Nat) :
    out <+: lookbackCopy out sb n d := by
  induction n generalizing out with
  | zero => simp [lookbackCopy]
  | succ n ih =>
    simp only [lookbackCopy]
    split
    · exact List.prefix_refl _
    · exact (List.prefix_append out _).trans (ih _)

theorem lookbackCopy_length_le (out : List Nat) (sb n d : Nat) (h : out.length ≤ d) :
    (lookbackCopy out sb n d).length ≤ d := by
  induction n generalizing out with
  | zero => simpa [lookbackCopy] using h
  | succ n ih =>
    simp only [lookbackCopy]
    split
    · exact h
    · exact ih _ (by simp; omega)

/-! ### Fuel sufficiency for the main loop -/

theorem ykcmpLoopF_nil (f : Nat) (out : List Nat) (d : Nat) :
    ykcmpLoopF f [] out d = ([], out) := by
  cases f <;> rfl

theorem ykcmpLoopF_congr :
    ∀ (f g : Nat) (comp out : List Nat) (d : Nat), comp.length ≤ f → comp.length ≤ g →
      ykcmpLoopF f comp out d = ykcmpLoopF g comp out d := by
  intro f
  induction f with
  | zero =>
    intro g comp out d hf _
    have : comp = [] := List.length_eq_zero.mp (Nat.le_zero.mp hf)
    subst this
    simp [ykcmpLoopF_nil]
  | succ f ih =>
    intro g comp out d hf hg
    cases comp with
    | nil => simp [ykcmpLoopF_nil]
    | cons a rest =>
      cases g with
      | zero => simp at hg
      | succ g =>
        simp only [List.length_cons] at hf hg
        simp only [ykcmpLoopF]
        split
        · rfl
        · split
          · exact ih g rest out d (by omega) (by omega)
          · split
            · exact ih g _ _ d
                (le_trans (literalCopy_fst_length_le _ _ _ _) (by omega))
                (le_trans (literalCopy_fst_length_le _ _ _ _) (by omega))
            · split
              · cases rest with
                | nil => rfl
                | cons b rest1 =>
                  cases rest1 with
                  | nil => rfl
                  | cons c rest2 =>
                    exact ih g rest2 _ d (by simp at hf ⊢; omega) (by simp at hg ⊢; omega)
              · split
                · cases rest with
                  | nil => rfl
                  | cons b rest2 =>
                    exact ih g rest2 _ d (by simp at hf ⊢; omega) (by simp at hg ⊢; omega)
                · exact ih g rest _ d (by omega) (by omega)

/-! ### One-step equations for `ykcmpLoop` -/

theorem ykcmpLoop_nil (out : List Nat) (d : Nat) : ykcmpLoop [] out d = ([], out) := rfl

theorem ykcmpLoop_stop (comp out : List Nat) (d : Nat) (h : d ≤ out.length) :
    (ykcmpLoop comp out d).2 = out := by
  cases comp with
  | nil => rfl
  | cons a rest =>
    simp only [ykcmpLoop, List.length_cons, ykcmpLoopF, if_pos h]

theorem ykcmpLoop_nop (rest out : List Nat) (d : Nat) (h : out.length < d) :
    ykcmpLoop (0 :: rest) out d = ykcmpLoop rest out d := by
  simp only [ykcmpLoop, List.length_cons, ykcmpLoopF, if_neg (by omega : ¬ d ≤ out.length)]
  simp

theorem ykcmpLoop_lit (a : Nat) (rest out : List Nat) (d : Nat)
    (h : out.length < d) (h1 : a ≠ 0) (h2 : a < 0x80) :
    ykcmpLoop (a :: rest) out d =
      ykcmpLoop (literalCopy rest out a d).1 (literalCopy rest out a d).2 d := by
  simp only [ykcmpLoop, List.length_cons, ykcmpLoopF, if_neg (by omega : ¬ d ≤ out.length),
    if_neg h1, if_pos h2]
  exact ykcmpLoopF_congr _ _ _ _ _ (literalCopy_fst_length_le _ _ _ _) le_rfl

theorem ykcmpLoop_sref (a : Nat) (rest out : List Nat) (d : Nat)
    (h : out.length < d) (h1 : 0x80 ≤ a) (h2 : a < 0xC0) :
    ykcmpLoop (a :: rest) out d =
      ykcmpLoop rest (lookbackCopy out ((a &&& 0x0F) + 1) (((a >>> 4) &&& 0x03) + 1) d) d := by
  simp only [ykcmpLoop, List.length_cons, ykcmpLoopF, if_neg (by omega : ¬ d ≤ out.length),
    if_neg (by omega : ¬ a = 0), if_neg (by omega : ¬ a < 0x80),
    if_neg (by omega : ¬ 0xE0 ≤ a), if_neg (by omega : ¬ 0xC0 ≤ a)]

theorem ykcmpLoop_mref (a b : Nat) (rest out : List Nat) (d : Nat)
    (h : out.length < d) (h1 : 0xC0 ≤ a) (h2 : a < 0xE0) :
    ykcmpLoop (a :: b :: rest) out d =
      ykcmpLoop rest (lookbackCopy out (b + 1) ((a &&& 0x3F) + 2) d) d := by
  simp only [ykcmpLoop, List.length_cons, ykcmpLoopF, if_neg (by omega : ¬ d ≤ out.length),
    if_neg (by omega : ¬ a = 0), if_neg (by omega : ¬ a < 0x80),
    if_neg (by omega : ¬ 0xE0 ≤ a), if_pos h1]
  exact ykcmpLoopF_congr _ _ _ _ _ (by omega) le_rfl

theorem ykcmpLoop_lref (a b c : Nat) (rest out : List Nat) (d : Nat)
    (h : out.length < d) (h1 : 0xE0 ≤ a) :
    ykcmpLoop (a :: b :: c :: rest) out d =
      ykcmpLoop rest
        (lookbackCopy out (((b &&& 0x0F) <<< 8) + c + 1)
          (((a &&& 0x1F) <<< 4) + (b >>> 4) + 3) d) d := by
  simp only [ykcmpLoop, List.length_cons, ykcmpLoopF, if_neg (by omega : ¬ d ≤ out.length),
    if_neg (by omega : ¬ a = 0), if_neg (by omega : ¬ a < 0x80), if_pos h1]
  exact ykcmpLoopF_congr _ _ _ _ _ (by omega) le_rfl

theorem ykcmpLoop_mref_trunc (a : Nat) (out : List Nat) (d : Nat)
    (h : out.length < d) (h1 : 0xC0 ≤ a) (h2 : a < 0xE0) :
    ykcmpLoop [a] out d = ([a], out) := by
  simp only [ykcmpLoop, List.length_cons, ykcmpLoopF, if_neg (by omega : ¬ d ≤ out.length),
    if_neg (by omega : ¬ a = 0), if_neg (by omega : ¬ a < 0x80),
    if_neg (by omega : ¬ 0xE0 ≤ a), if_pos h1]

theorem ykcmpLoop_lref_trunc0 (a : Nat) (out : List Nat) (d : Nat)
    (h : out.length < d) (h1 : 0xE0 ≤ a) :
    ykcmpLoop [a] out d = ([a], out) := by
  simp only [ykcmpLoop, List.length_cons, ykcmpLoopF, if_neg (by omega : ¬ d ≤ out.length),
    if_neg (by omega : ¬ a = 0), if_neg (by omega : ¬ a < 0x80), if_pos h1]

theorem ykcmpLoop_lref_trunc1 (a b : Nat) (out : List Nat) (d : Nat)
    (h : out.length < d) (h1 : 0xE0 ≤ a) :
    ykcmpLoop [a, b] out d = ([a, b], out) := by
  simp only [ykcmpLoop, List.length_cons, ykcmpLoopF, if_neg (by omega : ¬ d ≤ out.length),
    if_neg (by omega : ¬ a = 0), if_neg (by omega : ¬ a < 0x80), if_pos h1]

/-! ### Loop invariants: the write cursor only advances and stays in bounds,
the read cursor only advances and stays in bounds -/

theorem ykcmpLoopF_extends (f : Nat) (comp out : List Nat) (d : Nat) :
    out <+: (ykcmpLoopF f comp out d).2 := by
  induction f generalizing comp out with
  | zero => exact List.prefix_refl _
  | succ f ih =>
    cases comp with
    | nil => exact List.prefix_refl _
    | cons a rest =>
      simp only [ykcmpLoopF]
      split
      · exact List.prefix_refl _
      · split
        · exact ih rest out
        · split
          · exact (literalCopy_extends _ _ _ _).trans (ih _ _)
          · split
            · split
              · exact (lookbackCopy_extends _ _ _ _).trans (ih _ _)
              · exact List.prefix_refl _
            · split
              · split
                · exact (lookbackCopy_extends _ _ _ _).trans (ih _ _)
                · exact List.prefix_refl _
              · exact (lookbackCopy_extends _ _ _ _).trans (ih _ _)

theorem ykcmpLoopF_length_le (f : Nat) (comp out : List Nat) (d : Nat)
    (h : out.length ≤ d) : (ykcmpLoopF f comp out d).2.length ≤ d := by
  induction f generalizing comp out with
  | zero => exact h
  | succ f ih =>
    cases comp with
    | nil => exact h
    | cons a rest =>
      simp only [ykcmpLoopF]
      split
      · exact h
      · split
        · exact ih rest out h
        · split
          · exact ih _ _ (literalCopy_length_le _ _ _ _ h)
          · split
            · split
              · exact ih _ _ (lookbackCopy_length_le _ _ _ _ h)
              · exact h
            · split
              · split
                · exact ih _ _ (lookbackCopy_length_le _ _ _ _ h)
                · exact h
              · exact ih _ _ (lookbackCopy_length_le _ _ _ _ h)

theorem ykcmpLoopF_fst_sfx (f : Nat) (comp out : List Nat) (d : Nat) :
    (ykcmpLoopF f comp out d).1 <:+ comp := by
  induction f generalizing comp out with
  | zero => exact List.suffix_refl _
  | succ f ih =>
    cases comp with
    | nil => exact List.suffix_refl _
    | cons a rest =>
      simp only [ykcmpLoopF]
      split
      · exact List.suffix_refl _
      · split
        · exact (ih rest out).trans (List.suffix_cons a rest)
        · split
          · exact ((ih _ _).trans (literalCopy_fst_sfx rest out a d)).trans
              (List.suffix_cons a rest)
          · split
            · split
              · exact (ih _ _).trans (((List.suffix_cons _ _).trans
                  (List.suffix_cons _ _)).trans (List.suffix_cons _ _))
              · exact List.suffix_refl _
            · split
              · split
                · exact (ih _ _).trans ((List.suffix_cons _ _).trans (List.suffix_cons _ _))
                · exact List.suffix_refl _
              · exact (ih rest _).trans (List.suffix_cons a rest)

/-! ### Exact behavior of the copy loops on well-shaped inputs -/

/-- A literal run whose full payload fits copies exactly the payload. -/
theorem literalCopy_exact (p : List Nat) :
    ∀ (rest out : List Nat) (d : Nat), out.length + p.length ≤ d →
      literalCopy (p ++ rest) out p.length d = (rest, out ++ p) := by
  induction p with
  | nil => intro rest out d _; simp [literalCopy]
  | cons y p ih =>
    intro rest out d h
    simp only [List.length_cons, List.cons_append, literalCopy,
      if_neg (by simp at h ⊢; omega : ¬ d ≤ out.length), List.append_eq]
    rw [ih rest (out ++ [y]) d (by simp at h ⊢; omega)]
    simp

/-- A literal run never reads past its own payload: the copy of `n ≤ p.length`
bytes from `p ++ rest` leaves `rest` untouched. -/
theorem literalCopy_split :
    ∀ (n : Nat) (p rest out : List Nat) (d : Nat), n ≤ p.length →
      literalCopy (p ++ rest) out n d =
        ((literalCopy p out n d).1 ++ rest, (literalCopy p out n d).2) := by
  intro n
  induction n with
  | zero => intro p rest out d _; simp [literalCopy]
  | succ n ih =>
    intro p rest out d h
    cases p with
    | nil => simp at h
    | cons y p =>
      simp only [List.cons_append, literalCopy]
      split
      · rfl
      · exact ih p rest (out ++ [y]) d (by simpa using h)

/-- If a literal run of exactly the payload length stops below `dsize`, it
consumed its whole payload. -/
theorem literalCopy_not_full (p : List Nat) :
    ∀ (out : List Nat) (d : Nat), (literalCopy p out p.length d).2.length < d →
      (literalCopy p out p.length d).1 = [] := by
  induction p with
  | nil => intro out d _; rfl
  | cons y p ih =>
    intro out d h
    simp only [List.length_cons, literalCopy] at h ⊢
    split
    · rename_i hfull
      simp only [if_pos hfull] at h
      omega
    · rename_i hfull
      simp only [if_neg hfull] at h
      exact ih (out ++ [y]) d h

/-- An overlapping self-copy at distance 1 appended after the last byte `x`
repeats `x`: each step re-reads the byte the previous step just wrote. -/
theorem lookbackCopy_one :
    ∀ (n : Nat) (P : List Nat) (x d : Nat), P.length + 1 + n ≤ d →
      lookbackCopy (P ++ [x]) 1 n d = P ++ x :: List.replicate n x := by
  intro n
  induction n with
  | zero => intro P x d _; simp [lookbackCopy]
  | succ n ih =>
    intro P x d h
    simp only [lookbackCopy, if_neg (by simp; omega : ¬ d ≤ (P ++ [x]).length)]
    have hv : (P ++ [x]).getD ((P ++ [x]).length - 1) 0 = x := by
      simp [List.getD_eq_getElem?_getD]
    rw [if_neg (by simp : ¬ (P ++ [x]).length < 1), hv]
    rw [ih (P ++ [x]) x d (by simp at h ⊢; omega)]
    simp [List.replicate_succ]

/-! ### Token-level view of the stream -/

/-- One token of the stream: a control byte plus its 0–2 extra bytes or its
literal payload, following the opcode table of the decoder. -/
inductive YkTok where
  | nop : YkTok
  | lit (payload : List Nat) : YkTok
  | sref (a : Nat) : YkTok
  | mref (a b : Nat) : YkTok
  | lref (a b c : Nat) : YkTok
deriving DecidableEq, Repr

/-- Serialization of one token back into stream bytes. -/
def serTok : YkTok → List Nat
  | .nop => [0]
  | .lit p => p.length :: p
  | .sref a => [a]
  | .mref a b => [a, b]
  | .lref a b c => [a, b, c]

/-- Serialization of a token list. -/
def serToks (ts : List YkTok) : List Nat := (ts.map serTok).flatten

/-- Well-formedness of a token: the control byte lies in the range of its
class and all carried bytes are bytes. -/
def wfTok : YkTok → Bool
  | .nop => true
  | .lit p => decide (1 ≤ p.length) && decide (p.length ≤ 0x7F) && p.all (fun x => decide (x ≤ 255))
  | .sref a => decide (0x80 ≤ a) && decide (a ≤ 0xBF)
  | .mref a b => decide (0xC0 ≤ a) && decide (a ≤ 0xDF) && decide (b ≤ 255)
  | .lref a b c =>
    decide (0xE0 ≤ a) && decide (a ≤ 0xFF) && decide (b ≤ 255) && decide (c ≤ 255)

/-- The effect of one token on the written output. -/
def applyTok (t : YkTok) (out : List Nat) (d : Nat) : List Nat :=
  match t with
  | .nop => out
  | .lit p => (literalCopy p out p.length d).2
  | .sref a => lookbackCopy out ((a &&& 0x0F) + 1) (((a >>> 4) &&& 0x03) + 1) d
  | .mref a b => lookbackCopy out (b + 1) ((a &&& 0x3F) + 2) d
  | .lref a b c =>
    lookbackCopy out (((b &&& 0x0F) <<< 8) + c + 1)
      (((a &&& 0x1F) <<< 4) + (b >>> 4) + 3) d

/-- The effect of a token list, stopping once the output is full. -/
def applyToks : List YkTok → List Nat → Nat → List Nat
  | [], out, _ => out
  | t :: ts, out, d => if d ≤ out.length then out else applyToks ts (applyTok t out d) d

/-- Dropping the `0x00` no-op tokens from a stream. -/
def eraseNops (ts : List YkTok) : List YkTok :=
  ts.filter (fun t => t != .nop)

theorem applyToks_full (ts : List YkTok) (out : List Nat) (d : Nat) (h : d ≤ out.length) :
    applyToks ts out d = out := by
  cases ts with
  | nil => rfl
  | cons t ts => simp [applyToks, if_pos h]

/-- The byte-stream decoder agrees with the token-by-token semantics on
well-formed token lists. -/
theorem serToks_decode (ts : List YkTok) :
    ∀ (out : List Nat) (d : Nat), (∀ t ∈ ts, wfTok t = true) →
      (ykcmpLoop (serToks ts) out d).2 = applyToks ts out d := by
  induction ts with
  | nil => intro out d _; rfl
  | cons t ts ih =>
    intro out d hwf
    have hwt : wfTok t = true := hwf t (by simp)
    have hwts : ∀ u ∈ ts, wfTok u = true := fun u hu => hwf u (by simp [hu])
    have hser : serToks (t :: ts) = serTok t ++ serToks ts := by
      simp [serToks]
    rcases Nat.lt_or_ge out.length d with hlt | hge
    · rw [hser]
      cases t with
      | nop =>
        rw [show serTok .nop ++ serToks ts = 0 :: serToks ts from rfl,
          ykcmpLoop_nop (serToks ts) out d hlt]
        simp only [applyToks, if_neg (by omega : ¬ d ≤ out.length), applyTok]
        exact ih out d hwts
      | lit p =>
        simp only [wfTok, Bool.and_eq_true, decide_eq_true_eq] at hwt
        obtain ⟨⟨hp1, hp2⟩, _⟩ := hwt
        rw [show serTok (.lit p) ++ serToks ts = p.length :: (p ++ serToks ts) from by
          simp [serTok]]
        rw [ykcmpLoop_lit p.length (p ++ serToks ts) out d hlt (by omega) (by omega)]
        rw [literalCopy_split p.length p (serToks ts) out d le_rfl]
        simp only [applyToks, if_neg (by omega : ¬ d ≤ out.length), applyTok]
        rcases Nat.lt_or_ge (literalCopy p out p.length d).2.length d with h2 | h2
        · rw [literalCopy_not_full p out d h2]
          simpa using ih _ d hwts
        · rw [ykcmpLoop_stop _ _ d h2, applyToks_full ts _ d h2]
      | sref a =>
        simp only [wfTok, Bool.and_eq_true, decide_eq_true_eq] at hwt
        rw [show serTok (.sref a) ++ serToks ts = a :: serToks ts from rfl]
        rw [ykcmpLoop_sref a (serToks ts) out d hlt (by omega) (by omega)]
        simp only [applyToks, if_neg (by omega : ¬ d ≤ out.length), applyTok]
        exact ih _ d hwts
      | mref a b =>
        simp only [wfTok, Bool.and_eq_true, decide_eq_true_eq] at hwt
        rw [show serTok (.mref a b) ++ serToks ts = a :: b :: serToks ts from rfl]
        rw [ykcmpLoop_mref a b (serToks ts) out d hlt (by omega) (by omega)]
        simp only [applyToks, if_neg (by omega : ¬ d ≤ out.length), applyTok]
        exact ih _ d hwts
      | lref a b c =>
        simp only [wfTok, Bool.and_eq_true, decide_eq_true_eq] at hwt
        rw [show serTok (.lref a b c) ++ serToks ts = a :: b :: c :: serToks ts from rfl]
        rw [ykcmpLoop_lref a b c (serToks ts) out d hlt (by omega)]
        simp only [applyToks, if_neg (by omega : ¬ d ≤ out.length), applyTok]
        exact ih _ d hwts
    · rw [ykcmpLoop_stop _ _ d hge, applyToks_full _ _ d hge]

/-- No-op tokens have no effect on the token-by-token semantics. -/
theorem applyToks_eraseNops (ts : List YkTok) :
    ∀ (out : List Nat) (d : Nat), applyToks ts out d = applyToks (eraseNops ts) out d := by
  induction ts with
  | nil => intro out d; rfl
  | cons t ts ih =>
    intro out d
    rcases Nat.lt_or_ge out.length d with hlt | hge
    · cases t with
      | nop =>
        simp only [eraseNops, List.filter]
        simp only [applyToks, if_neg (by omega : ¬ d ≤ out.length), applyTok]
        exact ih out d
      | lit p =>
        simp only [eraseNops, List.filter, applyToks,
          if_neg (by omega : ¬ d ≤ out.length)]
        exact ih _ d
      | sref a =>
        simp only [eraseNops, List.filter, applyToks,
          if_neg (by omega : ¬ d ≤ out.length)]
        exact ih _ d
      | mref a b =>
        simp only [eraseNops, List.filter, applyToks,
          if_neg (by omega : ¬ d ≤ out.length)]
        exact ih _ d
      | lref a b c =>
        simp only [eraseNops, List.filter, applyToks,
          if_neg (by omega : ¬ d ≤ out.length)]
        exact ih _ d
    · rw [applyToks_full _ _ _ hge, applyToks_full _ _ _ hge]

/-! ### Instrumented decoder recording every back-reference read

Each trace entry is `(write position, source position)` of one back-reference
byte copy, with the source position `dp - seekback` kept as an integer so
that the negative-index zero-substitution case stays visible. -/

/-- `lookbackCopy` recording the `(dp, dp - seekback)` pair of each copied
byte. -/
def lookbackCopyT : List Nat → Nat → Nat → Nat → List Nat × List (Nat × Int)
  | out, _, 0, _ => (out, [])
  | out, seekback, n + 1, dsize =>
    if dsize ≤ out.length then (out, [])
    else
      let r := lookbackCopyT
        (out ++ [if out.length < seekback then 0 else out.getD (out.length - seekback) 0])
        seekback n dsize
      (r.1, (out.length, (out.length : Int) - seekback) :: r.2)

/-- The main loop with every back-reference read recorded. -/
def ykcmpLoopFT : Nat → List Nat → List Nat → Nat → (List Nat × List Nat) × List (Nat × Int)
  | 0, comp, out, _ => ((comp, out), [])
  | _ + 1, [], out, _ => (([], out), [])
  | fuel + 1, a :: rest, out, dsize =>
    if dsize ≤ out.length then ((a :: rest, out), [])
    else if a = 0 then ykcmpLoopFT fuel rest out dsize
    else if a < 0x80 then
      let r := literalCopy rest out a dsize
      ykcmpLoopFT fuel r.1 r.2 dsize
    else if 0xE0 ≤ a then
      match rest with
      | b :: c :: rest2 =>
        let r := lookbackCopyT out (((b &&& 0x0F) <<< 8) + c + 1)
          (((a &&& 0x1F) <<< 4) + (b >>> 4) + 3) dsize
        let s := ykcmpLoopFT fuel rest2 r.1 dsize
        (s.1, r.2 ++ s.2)
      | _ => ((a :: rest, out), [])
    else if 0xC0 ≤ a then
      match rest with
      | b :: rest2 =>
        let r := lookbackCopyT out (b + 1) ((a &&& 0x3F) + 2) dsize
        let s := ykcmpLoopFT fuel rest2 r.1 dsize
        (s.1, r.2 ++ s.2)
      | [] => ((a :: rest, out), [])
    else
      let r := lookbackCopyT out ((a &&& 0x0F) + 1) (((a >>> 4) &&& 0x03) + 1) dsize
      let s := ykcmpLoopFT fuel rest r.1 dsize
      (s.1, r.2 ++ s.2)

/-- The trace-recording loop with its canonical fuel. -/
def ykcmpLoopT (comp out : List Nat) (dsize : Nat) : (List Nat × List Nat) × List (Nat × Int) :=
  ykcmpLoopFT comp.length comp out dsize

theorem lookbackCopyT_fst (out : List Nat) (sb n d : Nat) :
    (lookbackCopyT out sb n d).1 = lookbackCopy out sb n d := by
  induction n generalizing out with
  | zero => rfl
  | succ n ih =>
    simp only [lookbackCopyT, lookbackCopy]
    split
    · rfl
    · exact ih _

theorem ykcmpLoopFT_fst (f : Nat) (comp out : List Nat) (d : Nat) :
    (ykcmpLoopFT f comp out d).1 = ykcmpLoopF f comp out d := by
  induction f generalizing comp out with
  | zero => rfl
  | succ f ih =>
    cases comp with
    | nil => rfl
    | cons a rest =>
      simp only [ykcmpLoopFT, ykcmpLoopF]
      split
      · rfl
      · split
        · exact ih rest out
        · split
          · exact ih _ _
          · split
            · split
              · rw [lookbackCopyT_fst]; exact ih _ _
              · rfl
            · split
              · split
                · rw [lookbackCopyT_fst]; exact ih _ _
                · rfl
              · rw [lookbackCopyT_fst]; exact ih _ _

/-- Every recorded read of a back-reference copy with positive distance is at
a source position strictly below its write position, and every write position
is inside the output buffer. -/
theorem lookbackCopyT_trace (out : List Nat) (sb n d : Nat) (hsb : 1 ≤ sb) :
    ∀ p ∈ (lookbackCopyT out sb n d).2, p.2 < (p.1 : Int) ∧ p.1 < d := by
  induction n generalizing out with
  | zero => simp [lookbackCopyT]
  | succ n ih =>
    simp only [lookbackCopyT]
    split
    · simp
    · rename_i hfull
      intro p hp
      simp only [List.mem_cons] at hp
      rcases hp with hp | hp
      · subst hp
        constructor
        · simp only
          omega
        · simpa using Nat.lt_of_not_le hfull
      · exact ih _ p hp

theorem ykcmpLoopFT_trace (f : Nat) (comp out : List Nat) (d : Nat) :
    ∀ p ∈ (ykcmpLoopFT f comp out d).2, p.2 < (p.1 : Int) ∧ p.1 < d := by
  induction f generalizing comp out with
  | zero => simp [ykcmpLoopFT]
  | succ f ih =>
    cases comp with
    | nil => simp [ykcmpLoopFT]
    | cons a rest =>
      simp only [ykcmpLoopFT]
      split
      · simp
      · split
        · exact ih rest out
        · split
          · exact ih _ _
          · split
            · split
              · intro p hp
                simp only [List.mem_append] at hp
                rcases hp with hp | hp
                · exact lookbackCopyT_trace out _ _ d (by omega) p hp
                · exact ih _ _ p hp
              · simp
            · split
              · split
                · intro p hp
                  simp only [List.mem_append] at hp
                  rcases hp with hp | hp
                  · exact lookbackCopyT_trace out _ _ d (by omega) p hp
                  · exact ih _ _ p hp
                · simp
              · intro p hp
                simp only [List.mem_append] at hp
                rcases hp with hp | hp
                · exact lookbackCopyT_trace out _ _ d (by omega) p hp
                · exact ih _ _ p hp

/-! ### The claims -/

/-- C1: every back-reference token is decoded exactly by the opcode table:
a control byte `0x80 ≤ a ≤ 0xBF` consumes no extra byte and yields
`length = ((a >>> 4) &&& 0x03) + 1`, `distance = (a &&& 0x0F) + 1`;
`0xC0 ≤ a ≤ 0xDF` consumes one extra byte `b` and yields
`length = (a &&& 0x3F) + 2`, `distance = b + 1`; `0xE0 ≤ a ≤ 0xFF` consumes
two extra bytes `b`, `c` and yields
`length = ((a &&& 0x1F) <<< 4) + (b >>> 4) + 3`,
`distance = ((b &&& 0x0F) <<< 8) + c + 1`.  In particular opcode `0x80`
gives length 1 and distance 1, `0xBF` gives length 4 and distance 16,
`[0xC0, 0x00]` gives length 2 and distance 1, and `[0xE0, 0x00, 0x00]` gives
length 3 and distance 1. -/
theorem C1_opcode_table (a b c : Nat) (rest out : List Nat) (d : Nat)
    (h : out.length < d) :
    (0x80 ≤ a → a ≤ 0xBF →
      ykcmpLoop (a :: rest) out d
        = ykcmpLoop rest
            (lookbackCopy out ((a &&& 0x0F) + 1) (((a >>> 4) &&& 0x03) + 1) d) d)
    ∧ (0xC0 ≤ a → a ≤ 0xDF →
      ykcmpLoop (a :: b :: rest) out d
        = ykcmpLoop rest (lookbackCopy out (b + 1) ((a &&& 0x3F) + 2) d) d)
    ∧ (0xE0 ≤ a → a ≤ 0xFF →
      ykcmpLoop (a :: b :: c :: rest) out d
        = ykcmpLoop rest
            (lookbackCopy out (((b &&& 0x0F) <<< 8) + c + 1)
              (((a &&& 0x1F) <<< 4) + (b >>> 4) + 3) d) d)
    ∧ (((0x80 >>> 4) &&& 0x03) + 1 = 1 ∧ (0x80 &&& 0x0F) + 1 = 1)
    ∧ (((0xBF >>> 4) &&& 0x03) + 1 = 4 ∧ (0xBF &&& 0x0F) + 1 = 16)
    ∧ ((0xC0 &&& 0x3F) + 2 = 2 ∧ 0x00 + 1 = 1)
    ∧ (((0xE0 &&& 0x1F) <<< 4) + (0x00 >>> 4) + 3 = 3
        ∧ ((0x00 &&& 0x0F) <<< 8) + 0x00 + 1 = 1) := by
  refine ⟨fun h1 h2 => ykcmpLoop_sref a rest out d h (by omega) (by omega),
    fun h1 h2 => ykcmpLoop_mref a b rest out d h (by omega) (by omega),
    fun h1 _ => ykcmpLoop_lref a b c rest out d h (by omega),
    by decide, by decide, by decide, by decide⟩

theorem C1_opcode_table_witness :
    ykcmpLoop [0x81] [7] 3
      = ykcmpLoop [] (lookbackCopy [7] ((0x81 &&& 0x0F) + 1) (((0x81 >>> 4) &&& 0x03) + 1) 3) 3
    ∧ ykcmpLoop [0xC1, 4] [7] 9
      = ykcmpLoop [] (lookbackCopy [7] (4 + 1) ((0xC1 &&& 0x3F) + 2) 9) 9
    ∧ ykcmpLoop [0xE0, 0, 0] [7] 9
      = ykcmpLoop []
          (lookbackCopy [7] (((0 &&& 0x0F) <<< 8) + 0 + 1)
            (((0xE0 &&& 0x1F) <<< 4) + (0 >>> 4) + 3) 9) 9 :=
  ⟨(C1_opcode_table 0x81 0 0 [] [7] 3 (by decide)).1 (by decide) (by decide),
    (C1_opcode_table 0xC1 4 0 [] [7] 9 (by decide)).2.1 (by decide) (by decide),
    (C1_opcode_table 0xE0 0 0 [] [7] 9 (by decide)).2.2.1 (by decide) (by decide)⟩

/-- C2: after one literal byte `x`, a medium back-reference opcode `a`
(`0xC0 ≤ a ≤ 0xDF`, so `length = L = (a &&& 0x3F) + 2`) with following byte
`0x00` (`distance = 1`) produces `L` further repetitions of `x`: the first
`L + 1` bytes of the output all equal `x`, because the copy advances the
write cursor one byte at a time and re-reads what it just wrote. -/
theorem C2_overlap_run (x a d : Nat) (hx : x ≤ 255) (h1 : 0xC0 ≤ a) (h2 : a ≤ 0xDF)
    (hd : (a &&& 0x3F) + 2 + 1 ≤ d) :
    (ykcmpOutput [1, x, a, 0] d).take ((a &&& 0x3F) + 2 + 1)
      = List.replicate ((a &&& 0x3F) + 2 + 1) x := by
  have hd0 : ¬ d = 0 := by omega
  have hlit : literalCopy [x, a, 0] [] 1 d = ([a, 0], [x]) := by
    simp [literalCopy, hd0]
  have hlb : lookbackCopy [x] 1 ((a &&& 0x3F) + 2) d
      = x :: List.replicate ((a &&& 0x3F) + 2) x := by
    simpa using lookbackCopy_one ((a &&& 0x3F) + 2) [] x d (by simp; omega)
  have hw : (ykcmpLoop [1, x, a, 0] [] d).2 = x :: List.replicate ((a &&& 0x3F) + 2) x := by
    rw [ykcmpLoop_lit 1 [x, a, 0] [] d (by simp; omega) (by omega) (by omega), hlit]
    show (ykcmpLoop [a, 0] [x] d).2 = _
    rw [ykcmpLoop_mref a 0 [] [x] d (by simp; omega) h1 (by omega), ykcmpLoop_nil]
    show lookbackCopy [x] (0 + 1) ((a &&& 0x3F) + 2) d = _
    rw [Nat.zero_add, hlb]
  unfold ykcmpOutput
  rw [hw]
  rw [show (a &&& 0x3F) + 2 + 1 = (x :: List.replicate ((a &&& 0x3F) + 2) x).length from by
    simp]
  rw [List.take_left]
  simp [List.replicate_succ]

theorem C2_overlap_run_witness :
    (ykcmpOutput [1, 7, 0xC3, 0] 10).take ((0xC3 &&& 0x3F) + 2 + 1)
      = List.replicate ((0xC3 &&& 0x3F) + 2 + 1) 7 :=
  C2_overlap_run 7 0xC3 10 (by decide) (by decide) (by decide) (by decide)

/-- C3: the token stream `[0x03, a, b, c, 0x81, 0x02]` with declared output
size 6 decodes to exactly `"abcb\x00\x00"`, not `"abcbcb"`: the literal run
writes `a, b, c`, opcode `0x81` (length 1, distance 2) copies the `b`, and
the decode stops short with 4 bytes produced. -/
theorem C3_concrete_scenario :
    ykcmp_decompress_from
        (MAGIC ++ [4, 0, 0, 0] ++ [26, 0, 0, 0] ++ [6, 0, 0, 0] ++ [3, 97, 98, 99, 0x81, 2]) 0
      = .ok ⟨[97, 98, 99, 98, 0, 0], 4, true⟩
    ∧ ykcmpOutput [3, 97, 98, 99, 0x81, 2] 6 = [97, 98, 99, 98, 0, 0]
    ∧ (ykcmpLoop [3, 97, 98, 99, 0x81, 2] [] 6).2.length = 4
    ∧ ykcmpOutput [3, 97, 98, 99, 0x81, 2] 6 ≠ [97, 98, 99, 98, 99, 98] := by
  refine ⟨rfl, rfl, rfl, by decide⟩

/-- C6: a back-reference whose source position `write_pos - distance` is
negative writes a zero byte at the current write position and goes on with
the copy; and the decoding phase never raises an error on any input — once
the header checks pass, `ykcmp_decompress_from` always returns a value. -/
theorem C6_negative_source_zero (out : List Nat) (sb n d : Nat)
    (h : out.length < d) (hneg : out.length < sb) :
    (lookbackCopy out sb (n + 1) d = lookbackCopy (out ++ [0]) sb n d)
    ∧ ∀ (data : List Nat) (offset : Nat),
        offset + 20 ≤ data.length →
        pySlice data offset (offset + 8) = MAGIC →
        hdrZsize data offset ≠ 0 →
        offset + hdrZsize data offset ≤ data.length →
        ∃ r, ykcmp_decompress_from data offset = .ok r := by
  constructor
  · simp only [lookbackCopy, if_neg (by omega : ¬ d ≤ out.length), if_pos hneg]
  · intro data offset h1 h2 h3 h4
    unfold ykcmp_decompress_from
    rw [if_neg (by omega), if_neg (by simp [h2]), if_neg h3, if_neg (by omega)]
    exact ⟨_, rfl⟩

theorem C6_negative_source_zero_witness :
    (lookbackCopy [5] 3 2 4 = lookbackCopy ([5] ++ [0]) 3 1 4)
    ∧ ∃ r, ykcmp_decompress_from
        (MAGIC ++ [4, 0, 0, 0] ++ [21, 0, 0, 0] ++ [2, 0, 0, 0] ++ [0x85]) 0 = .ok r :=
  ⟨(C6_negative_source_zero [5] 3 1 4 (by decide) (by decide)).1,
    (C6_negative_source_zero [5] 3 1 4 (by decide) (by decide)).2
      (MAGIC ++ [4, 0, 0, 0] ++ [21, 0, 0, 0] ++ [2, 0, 0, 0] ++ [0x85]) 0
      (by decide) (by decide) (by decide) (by decide)⟩

/-- C10: a medium back-reference opcode that is the last input byte, or a
long back-reference opcode followed by fewer than two bytes, makes the
decoder stop at once: the incomplete token is not consumed, nothing is
written for it, and no error is raised — the loop just ends with the output
produced so far. -/
theorem C10_truncated_backref (a b : Nat) (out : List Nat) (d : Nat)
    (h : out.length < d) :
    (0xC0 ≤ a → a < 0xE0 → ykcmpLoop [a] out d = ([a], out))
    ∧ (0xE0 ≤ a → ykcmpLoop [a] out d = ([a], out))
    ∧ (0xE0 ≤ a → ykcmpLoop [a, b] out d = ([a, b], out)) :=
  ⟨fun h1 h2 => ykcmpLoop_mref_trunc a out d h h1 h2,
    fun h1 => ykcmpLoop_lref_trunc0 a out d h h1,
    fun h1 => ykcmpLoop_lref_trunc1 a b out d h h1⟩

theorem C10_truncated_backref_witness :
    ykcmpLoop [0xC5] [9] 4 = ([0xC5], [9])
    ∧ ykcmpLoop [0xE5] [9] 4 = ([0xE5], [9])
    ∧ ykcmpLoop [0xE5, 1] [9] 4 = ([0xE5, 1], [9]) :=
  ⟨(C10_truncated_backref 0xC5 1 [9] 4 (by decide)).1 (by decide) (by decide),
    (C10_truncated_backref 0xE5 1 [9] 4 (by decide)).2.1 (by decide),
    (C10_truncated_backref 0xE5 1 [9] 4 (by decide)).2.2 (by decide)⟩

/-- C4: when the header checks pass, the operation never fails, and it
returns a buffer of length exactly `dsize` whose first `produced` bytes are
exactly the decode of the available opcodes and whose tail is zero-filled,
together with the produced count and a short flag set exactly when the
write cursor stopped before `dsize`. -/
theorem C4_short_decode (data : List Nat) (offset : Nat)
    (h1 : offset + 20 ≤ data.length)
    (h2 : pySlice data offset (offset + 8) = MAGIC)
    (h3 : hdrZsize data offset ≠ 0)
    (h4 : offset + hdrZsize data offset ≤ data.length) :
    ∃ r, ykcmp_decompress_from data offset = .ok r
      ∧ r.out.length = hdrDsize data offset
      ∧ r.produced = (ykcmpLoop
          (pySlice data (offset + 20) (offset + hdrZsize data offset)) []
          (hdrDsize data offset)).2.length
      ∧ r.out.take r.produced = (ykcmpLoop
          (pySlice data (offset + 20) (offset + hdrZsize data offset)) []
          (hdrDsize data offset)).2
      ∧ (∀ i, r.produced ≤ i → i < hdrDsize data offset → r.out.getD i 0 = 0)
      ∧ (r.short = true ↔ r.produced ≠ hdrDsize data offset)
      ∧ (r.produced < hdrDsize data offset → r.short = true) := by
  set comp := pySlice data (offset + 20) (offset + hdrZsize data offset) with hcomp
  set dsize := hdrDsize data offset with hdsize
  set w := (ykcmpLoop comp [] dsize).2 with hwdef
  have hlen : w.length ≤ dsize := ykcmpLoopF_length_le _ _ _ _ (by simp)
  have heq : ykcmp_decompress_from data offset
      = .ok ⟨w ++ List.replicate (dsize - w.length) 0, w.length, w.length != dsize⟩ := by
    unfold ykcmp_decompress_from
    rw [if_neg (by omega), if_neg (by simp [h2]), if_neg h3, if_neg (by omega)]
  refine ⟨_, heq, ?_, rfl, ?_, ?_, ?_, ?_⟩
  · simp only [List.length_append, List.length_replicate]
    omega
  · exact List.take_left w _
  · intro i hi1 hi2
    simp only at hi1 ⊢
    rw [List.getD_append_right w _ _ _ hi1]
    have : i - w.length < dsize - w.length := by omega
    simp [List.getD_eq_getElem?_getD, List.getElem?_replicate, this]
  · simp only
    exact bne_iff_ne
  · intro hlt
    simp only at hlt ⊢
    exact bne_iff_ne.mpr (by omega)

theorem C4_short_decode_witness :
    ∃ r, ykcmp_decompress_from
        (MAGIC ++ [4, 0, 0, 0] ++ [22, 0, 0, 0] ++ [3, 0, 0, 0] ++ [1, 7]) 0 = .ok r
      ∧ r.out.length = hdrDsize (MAGIC ++ [4, 0, 0, 0] ++ [22, 0, 0, 0] ++ [3, 0, 0, 0] ++ [1, 7]) 0
      ∧ r.produced = (ykcmpLoop
          (pySlice (MAGIC ++ [4, 0, 0, 0] ++ [22, 0, 0, 0] ++ [3, 0, 0, 0] ++ [1, 7]) 20
            (0 + hdrZsize (MAGIC ++ [4, 0, 0, 0] ++ [22, 0, 0, 0] ++ [3, 0, 0, 0] ++ [1, 7]) 0)) []
          (hdrDsize (MAGIC ++ [4, 0, 0, 0] ++ [22, 0, 0, 0] ++ [3, 0, 0, 0] ++ [1, 7]) 0)).2.length
      ∧ r.out.take r.produced = (ykcmpLoop
          (pySlice (MAGIC ++ [4, 0, 0, 0] ++ [22, 0, 0, 0] ++ [3, 0, 0, 0] ++ [1, 7]) 20
            (0 + hdrZsize (MAGIC ++ [4, 0, 0, 0] ++ [22, 0, 0, 0] ++ [3, 0, 0, 0] ++ [1, 7]) 0)) []
          (hdrDsize (MAGIC ++ [4, 0, 0, 0] ++ [22, 0, 0, 0] ++ [3, 0, 0, 0] ++ [1, 7]) 0)).2
      ∧ (∀ i, r.produced ≤ i →
          i < hdrDsize (MAGIC ++ [4, 0, 0, 0] ++ [22, 0, 0, 0] ++ [3, 0, 0, 0] ++ [1, 7]) 0 →
          r.out.getD i 0 = 0)
      ∧ (r.short = true ↔
          r.produced ≠ hdrDsize (MAGIC ++ [4, 0, 0, 0] ++ [22, 0, 0, 0] ++ [3, 0, 0, 0] ++ [1, 7]) 0)
      ∧ (r.produced < hdrDsize (MAGIC ++ [4, 0, 0, 0] ++ [22, 0, 0, 0] ++ [3, 0, 0, 0] ++ [1, 7]) 0 →
          r.short = true) := by
  have h := C4_short_decode (MAGIC ++ [4, 0, 0, 0] ++ [22, 0, 0, 0] ++ [3, 0, 0, 0] ++ [1, 7]) 0
    (by decide) (by decide) (by decide) (by decide)
  simpa using h

/-- C5 counterexample: with a well-formed magic and an `archive_size` field of
5 (which is below 20), the operation does not fail: it returns a zero-filled
buffer.  Only `archive_size = 0` (the source's `zsize <= 0`) is rejected,
not `archive_size < 20`. -/
theorem C5_counterexample :
    pySlice (MAGIC ++ [4, 0, 0, 0] ++ [5, 0, 0, 0] ++ [3, 0, 0, 0]) 0 8 = MAGIC
    ∧ hdrZsize (MAGIC ++ [4, 0, 0, 0] ++ [5, 0, 0, 0] ++ [3, 0, 0, 0]) 0 = 5
    ∧ (5 : Nat) < 20
    ∧ ykcmp_decompress_from (MAGIC ++ [4, 0, 0, 0] ++ [5, 0, 0, 0] ++ [3, 0, 0, 0]) 0
        = .ok ⟨[0, 0, 0], 0, true⟩ :=
  ⟨rfl, rfl, by omega, rfl⟩

/-- C5 amended: a magic-tag mismatch, or an `archive_size` field equal to 0,
makes the operation fail fatally before any decoding, with no output
produced; but an `archive_size` between 1 and 19 is accepted (the payload
slice is just empty), so `archive_size < 20` alone is not rejected. -/
theorem C5_amended_header_validation (data : List Nat) (offset : Nat) :
    (pySlice data offset (offset + 8) ≠ MAGIC →
      ∃ e, ykcmp_decompress_from data offset = .error e)
    ∧ (hdrZsize data offset = 0 → ∃ e, ykcmp_decompress_from data offset = .error e)
    ∧ (offset + 20 ≤ data.length → pySlice data offset (offset + 8) = MAGIC →
        hdrZsize data offset ≠ 0 → offset + hdrZsize data offset ≤ data.length →
        ∃ r, ykcmp_decompress_from data offset = .ok r) := by
  refine ⟨?_, ?_, ?_⟩
  · intro hm
    unfold ykcmp_decompress_from
    rcases Nat.lt_or_ge data.length (offset + 20) with hs | hs
    · rw [if_pos hs]; exact ⟨_, rfl⟩
    · rw [if_neg (by omega), if_pos hm]; exact ⟨_, rfl⟩
  · intro hz
    unfold ykcmp_decompress_from
    rcases Nat.lt_or_ge data.length (offset + 20) with hs | hs
    · rw [if_pos hs]; exact ⟨_, rfl⟩
    · rcases eq_or_ne (pySlice data offset (offset + 8)) MAGIC with hm | hm
      · rw [if_neg (by omega), if_neg (by simp [hm]), if_pos hz]; exact ⟨_, rfl⟩
      · rw [if_neg (by omega), if_pos hm]; exact ⟨_, rfl⟩
  · intro hs hm hz hr
    unfold ykcmp_decompress_from
    rw [if_neg (by omega), if_neg (by simp [hm]), if_neg hz, if_neg (by omega)]
    exact ⟨_, rfl⟩

theorem C5_amended_witness :
    (∃ e, ykcmp_decompress_from (List.replicate 20 0) 0 = .error e)
    ∧ (∃ e, ykcmp_decompress_from (MAGIC ++ [4, 0, 0, 0] ++ [0, 0, 0, 0] ++ [3, 0, 0, 0]) 0
        = .error e)
    ∧ (∃ r, ykcmp_decompress_from (MAGIC ++ [4, 0, 0, 0] ++ [5, 0, 0, 0] ++ [3, 0, 0, 0]) 0
        = .ok r) :=
  ⟨(C5_amended_header_validation (List.replicate 20 0) 0).1 (by decide),
    (C5_amended_header_validation (MAGIC ++ [4, 0, 0, 0] ++ [0, 0, 0, 0] ++ [3, 0, 0, 0]) 0).2.1
      (by decide),
    (C5_amended_header_validation (MAGIC ++ [4, 0, 0, 0] ++ [5, 0, 0, 0] ++ [3, 0, 0, 0]) 0).2.2
      (by decide) (by decide) (by decide) (by decide)⟩

/-! C7 setup: a stream made only of literal-run tokens covering `O`. -/

/-- The literal-run-only token stream for the chunk list `chunks`: each chunk
`ch` becomes the opcode byte `ch.length` followed by `ch` itself. -/
def litStream (chunks : List (List Nat)) : List Nat :=
  (chunks.map (fun ch => ch.length :: ch)).flatten

theorem litStream_eq_serToks (chunks : List (List Nat)) :
    litStream chunks = serToks (chunks.map YkTok.lit) := by
  simp [litStream, serToks, List.map_map]
  rfl

theorem applyToks_lits (chunks : List (List Nat)) :
    ∀ (P : List Nat) (N : Nat), (∀ ch ∈ chunks, 1 ≤ ch.length) →
      P.length + chunks.flatten.length ≤ N →
      applyToks (chunks.map YkTok.lit) P N = P ++ chunks.flatten := by
  induction chunks with
  | nil => intro P N _ _; simp [applyToks]
  | cons ch chs ih =>
    intro P N hwf hle
    have hch : 1 ≤ ch.length := hwf ch (by simp)
    simp only [List.flatten_cons, List.length_append] at hle
    simp only [List.map_cons, applyToks,
      if_neg (by omega : ¬ N ≤ P.length), applyTok]
    have hex : literalCopy ch P ch.length N = ([], P ++ ch) := by
      simpa using literalCopy_exact ch [] P N (by omega)
    rw [hex]
    rw [ih (P ++ ch) N (fun u hu => hwf u (by simp [hu])) (by simp only [List.length_append]; omega)]
    simp

/-- C7: a stream consisting only of literal-run tokens whose payloads
concatenate to `O`, decoded with `output_size = O.length`, yields exactly
`O`, with all of the output produced (a complete, non-short decode). -/
theorem C7_literal_roundtrip (chunks : List (List Nat))
    (hwf : ∀ ch ∈ chunks, 1 ≤ ch.length ∧ ch.length ≤ 0x7F ∧ ∀ x ∈ ch, x ≤ 255) :
    (ykcmpLoop (litStream chunks) [] chunks.flatten.length).2 = chunks.flatten
    ∧ ykcmpOutput (litStream chunks) chunks.flatten.length = chunks.flatten
    ∧ (ykcmpLoop (litStream chunks) [] chunks.flatten.length).2.length
        = chunks.flatten.length := by
  have hwf' : ∀ t ∈ chunks.map YkTok.lit, wfTok t = true := by
    intro t ht
    simp only [List.mem_map] at ht
    obtain ⟨ch, hch, rfl⟩ := ht
    obtain ⟨hc1, hc2, hc3⟩ := hwf ch hch
    simp [wfTok, hc1, hc2, List.all_eq_true]
    intro x hx
    exact hc3 x hx
  have hmain : (ykcmpLoop (litStream chunks) [] chunks.flatten.length).2 = chunks.flatten := by
    rw [litStream_eq_serToks, serToks_decode _ [] _ hwf']
    rw [applyToks_lits chunks [] _ (fun ch hch => (hwf ch hch).1) (by simp)]
    simp
  refine ⟨hmain, ?_, by rw [hmain]⟩
  unfold ykcmpOutput
  rw [hmain]
  simp

theorem C7_literal_roundtrip_witness :
    (ykcmpLoop (litStream [[5], [6, 7]]) [] ([[5], [6, 7]] : List (List Nat)).flatten.length).2
        = ([[5], [6, 7]] : List (List Nat)).flatten
    ∧ ykcmpOutput (litStream [[5], [6, 7]]) ([[5], [6, 7]] : List (List Nat)).flatten.length
        = ([[5], [6, 7]] : List (List Nat)).flatten
    ∧ (ykcmpLoop (litStream [[5], [6, 7]]) [] ([[5], [6, 7]] : List (List Nat)).flatten.length).2.length
        = ([[5], [6, 7]] : List (List Nat)).flatten.length :=
  C7_literal_roundtrip [[5], [6, 7]] (by decide)

/-- C8: inserting any number of `0x00` no-op opcodes at token boundaries of a
valid token stream leaves the decoded output unchanged — two well-formed
token streams that agree after erasing no-ops decode identically — and each
`0x00` control byte consumes exactly one input byte and writes nothing. -/
theorem C8_nop_transparency (ts1 ts2 : List YkTok) (d : Nat)
    (h1 : ∀ t ∈ ts1, wfTok t = true) (h2 : ∀ t ∈ ts2, wfTok t = true)
    (he : eraseNops ts1 = eraseNops ts2) :
    ((ykcmpLoop (serToks ts1) [] d).2 = (ykcmpLoop (serToks ts2) [] d).2)
    ∧ (ykcmpOutput (serToks ts1) d = ykcmpOutput (serToks ts2) d)
    ∧ ∀ (rest out : List Nat), out.length < d →
        ykcmpLoop (0 :: rest) out d = ykcmpLoop rest out d := by
  have k : ∀ ts, (∀ t ∈ ts, wfTok t = true) →
      (ykcmpLoop (serToks ts) [] d).2 = applyToks (eraseNops ts) [] d :=
    fun ts h => (serToks_decode ts [] d h).trans (applyToks_eraseNops ts [] d)
  have h12 : (ykcmpLoop (serToks ts1) [] d).2 = (ykcmpLoop (serToks ts2) [] d).2 := by
    rw [k ts1 h1, k ts2 h2, he]
  exact ⟨h12, by unfold ykcmpOutput; rw [h12],
    fun rest out h => ykcmpLoop_nop rest out d h⟩

theorem C8_nop_transparency_witness :
    ((ykcmpLoop (serToks [.lit [5]]) [] 1).2
        = (ykcmpLoop (serToks [.nop, .lit [5], .nop]) [] 1).2)
    ∧ (ykcmpOutput (serToks [.lit [5]]) 1 = ykcmpOutput (serToks [.nop, .lit [5], .nop]) 1)
    ∧ ykcmpLoop [0, 1, 5] [] 1 = ykcmpLoop [1, 5] [] 1 := by
  have h := C8_nop_transparency [.lit [5]] [.nop, .lit [5], .nop] 1
    (by decide) (by decide) (by decide)
  exact ⟨h.1, h.2.1, h.2.2 [1, 5] [] (by decide)⟩

/-- C9: the read cursor only moves forward through the payload (the leftover
is a suffix of the input) and never past its end, the write cursor only
appends (the previous output is a prefix of the new one) and never passes
`output_size`, and every back-reference read recorded by the instrumented
decoder — which computes exactly the same result — happens at a source
position strictly below the write position of the byte being written (in
particular, every non-negative source index is already-written output). -/
theorem C9_cursor_invariants (comp out : List Nat) (d : Nat) :
    ((ykcmpLoop comp out d).1 <:+ comp)
    ∧ (out <+: (ykcmpLoop comp out d).2)
    ∧ (out.length ≤ d → (ykcmpLoop comp out d).2.length ≤ d)
    ∧ ((ykcmpLoopT comp out d).1 = ykcmpLoop comp out d)
    ∧ (∀ p ∈ (ykcmpLoopT comp out d).2, p.2 < (p.1 : Int) ∧ p.1 < d) :=
  ⟨ykcmpLoopF_fst_sfx _ _ _ _, ykcmpLoopF_extends _ _ _ _,
    fun h => ykcmpLoopF_length_le _ _ _ _ h,
    ykcmpLoopFT_fst _ _ _ _, ykcmpLoopFT_trace _ _ _ _⟩

theorem C9_cursor_invariants_witness :
    (ykcmpLoop [1, 5, 0x81] [] 3).2.length ≤ 3
    ∧ ((-1 : Int) < ((1 : Nat) : Int) ∧ (1 : Nat) < 3) :=
  ⟨(C9_cursor_invariants [1, 5, 0x81] [] 3).2.2.1 (by decide),
    (C9_cursor_invariants [1, 5, 0x81] [] 3).2.2.2.2 (1, -1) (by decide)⟩

end Ykcmp
